import Mathlib

/-!
Verification development for the `locas` repository.

The frontend streaming client (`src/frontend/lib/api.ts`) is embedded
shallowly: strings are `List Char`, the SSE body is a list of decoded text
chunks, and `processQueryStream` becomes a pure function from the chunk list
to the ordered list of parsed events delivered to `onEvent`.

The backend pipeline (location extractor, geocoder adapter, tool registry,
planner/orchestrator, stream emitter) is not part of the repository sources;
those components are modelled from the specification, as marked on each
definition.
-/

namespace Locas

/-- JavaScript `String.prototype.trim` whitespace (the characters relevant
here: ASCII blanks plus NBSP and BOM). -/
def jsWhitespaceChar (c : Char) : Bool :=
  c = ' ' || c = '\t' || c = '\n' || c = '\r' ||
  c = '\x0b' || c = '\x0c' || c = ' ' || c = '﻿'

/-- Model of JavaScript `trim`: drop whitespace from both ends. -/
def trimChars (s : List Char) : List Char :=
  ((s.dropWhile jsWhitespaceChar).reverse.dropWhile jsWhitespaceChar).reverse

/-- Prepend a character onto the first piece of a split result. -/
def consHead (c : Char) : List (List Char) → List (List Char)
  | [] => [[c]]
  | p :: ps => (c :: p) :: ps

/-- Model of JavaScript `buffer.split('\n\n')`: split at each leftmost,
non-overlapping occurrence of two consecutive newline characters. -/
def splitNN : List Char → List (List Char)
  | [] => [[]]
  | [c] => [[c]]
  | c₁ :: c₂ :: rest =>
    if c₁ = '\n' ∧ c₂ = '\n' then
      [] :: splitNN rest
    else
      consHead c₁ (splitNN (c₂ :: rest))

/-- The last element of a nonempty list (the value `parts.pop()` returns). -/
def lastD : List (List Char) → List Char
  | [] => []
  | [p] => p
  | _ :: q :: qs => lastD (q :: qs)

/-- All elements but the last (what remains of `parts` after `parts.pop()`). -/
def initParts : List (List Char) → List (List Char)
  | [] => []
  | [_] => []
  | p :: q :: qs => p :: initParts (q :: qs)

theorem splitNN_ne_nil (s : List Char) : splitNN s ≠ [] := by
  induction s using splitNN.induct with
  | case1 => simp [splitNN]
  | case2 c => simp [splitNN]
  | case3 c₁ c₂ rest h ih =>
    simp only [splitNN, if_pos h]
    exact List.cons_ne_nil _ _
  | case4 c₁ c₂ rest h ih =>
    simp only [splitNN, if_neg h]
    cases hs : splitNN (c₂ :: rest) with
    | nil => exact List.cons_ne_nil _ _
    | cons p ps => simp [consHead]

theorem splitNN_singleton {s l : List Char} (h : splitNN s = [l]) : s = l := by
  induction s using splitNN.induct generalizing l with
  | case1 => simpa [splitNN] using h.symm
  | case2 c => simpa [splitNN] using h
  | case3 c₁ c₂ rest hsep ih =>
    rw [splitNN, if_pos hsep] at h
    exact absurd (List.cons.injEq _ _ _ _ ▸ h).2.symm (splitNN_ne_nil rest).symm
  | case4 c₁ c₂ rest hsep ih =>
    rw [splitNN, if_neg hsep] at h
    cases hs : splitNN (c₂ :: rest) with
    | nil => exact absurd hs (splitNN_ne_nil _)
    | cons p ps =>
      rw [hs] at h
      simp only [consHead] at h
      obtain ⟨h1, h2⟩ := List.cons.injEq _ _ _ _ ▸ h
      subst h2
      rw [← h1, ih hs]

theorem splitNN_cons (c : Char) (xs : List Char)
    (hx : ¬(c = '\n' ∧ xs.head? = some '\n')) :
    splitNN (c :: xs) = consHead c (splitNN xs) := by
  cases xs with
  | nil => simp [splitNN, consHead]
  | cons x xs' =>
    have : ¬(c = '\n' ∧ x = '\n') := by simpa using hx
    rw [splitNN, if_neg this]

theorem splitNN_append (a b : List Char) :
    splitNN (a ++ b) =
      initParts (splitNN a) ++ splitNN (lastD (splitNN a) ++ b) := by
  induction a using splitNN.induct with
  | case1 => simp [splitNN, initParts, lastD]
  | case2 c => simp [splitNN, initParts, lastD]
  | case3 c₁ c₂ rest hsep ih =>
    obtain ⟨hc₁, hc₂⟩ := hsep
    subst hc₁; subst hc₂
    have hrw : ('\n' :: '\n' :: rest) ++ b = '\n' :: '\n' :: (rest ++ b) := rfl
    rw [hrw, splitNN, if_pos ⟨rfl, rfl⟩, splitNN, if_pos ⟨rfl, rfl⟩]
    cases hs : splitNN rest with
    | nil => exact absurd hs (splitNN_ne_nil _)
    | cons p ps =>
      rw [hs] at ih
      simp only [initParts, lastD]
      cases ps with
      | nil => simpa [initParts, lastD, hs] using ih
      | cons q qs => simpa [initParts, lastD, hs] using ih
  | case4 c₁ c₂ rest hsep ih =>
    have hrw : (c₁ :: c₂ :: rest) ++ b = c₁ :: c₂ :: (rest ++ b) := rfl
    rw [hrw, splitNN, if_neg hsep, splitNN, if_neg hsep]
    cases hs : splitNN (c₂ :: rest) with
    | nil => exact absurd hs (splitNN_ne_nil _)
    | cons p ps =>
      rw [hs] at ih
      cases ps with
      | nil =>
        have hp : c₂ :: rest = p := splitNN_singleton hs
        subst hp
        simp only [consHead, initParts, lastD, List.nil_append]
        show consHead c₁ (splitNN (c₂ :: (rest ++ b))) =
          splitNN (c₁ :: c₂ :: (rest ++ b))
        rw [splitNN, if_neg hsep]
      | cons q qs =>
        rw [List.cons_append] at ih
        simp only [consHead, initParts, lastD]
        rw [ih]
        simp only [initParts, lastD]
        cases hq : splitNN (lastD (q :: qs) ++ b) with
        | nil => exact absurd hq (splitNN_ne_nil _)
        | cons r rs => simp [consHead, initParts]

theorem splitNN_lastD (s : List Char) :
    splitNN (lastD (splitNN s)) = [lastD (splitNN s)] := by
  induction s using splitNN.induct with
  | case1 => simp [splitNN, lastD]
  | case2 c => simp [splitNN, lastD]
  | case3 c₁ c₂ rest hsep ih =>
    rw [splitNN, if_pos hsep]
    cases hs : splitNN rest with
    | nil => exact absurd hs (splitNN_ne_nil _)
    | cons p ps =>
      rw [hs] at ih
      simpa [lastD] using ih
  | case4 c₁ c₂ rest hsep ih =>
    rw [splitNN, if_neg hsep]
    cases hs : splitNN (c₂ :: rest) with
    | nil => exact absurd hs (splitNN_ne_nil _)
    | cons p ps =>
      rw [hs] at ih
      cases ps with
      | nil =>
        have hp : c₂ :: rest = p := splitNN_singleton hs
        subst hp
        simp only [consHead, lastD]
        rw [splitNN, if_neg hsep, hs, consHead]
      | cons q qs => simpa [consHead, lastD] using ih

/-! ## A model of JavaScript `JSON.parse`

`processQueryStream` calls `JSON.parse` on each frame payload and passes the
parsed value to `onEvent` unchanged (the TypeScript cast performs no runtime
check), so the delivered events are arbitrary JSON values.  A numeric
literal is kept as the exact decimal `mantissa × 10 ^ exp10` its digits
denote; IEEE-754 rounding is not modelled (no claim depends on numeric
values). -/

/-- JSON values. -/
inductive Json where
  | null : Json
  | bool (b : Bool) : Json
  | num (mantissa : Int) (exp10 : Int) : Json
  | str (s : List Char) : Json
  | arr (elems : List Json) : Json
  | obj (fields : List (List Char × Json)) : Json

/-- JSON insignificant whitespace. -/
def jsonWsChar (c : Char) : Bool :=
  c = ' ' || c = '\t' || c = '\n' || c = '\r'

/-- Skip JSON whitespace. -/
def skipWsJ (s : List Char) : List Char := s.dropWhile jsonWsChar

/-- Numeric value of a decimal digit character. -/
def digitVal (c : Char) : Nat := c.toNat - '0'.toNat

/-- Accumulate decimal digits into a natural number. -/
def digitsToNat (acc : Nat) : List Char → Nat
  | [] => acc
  | c :: cs => digitsToNat (acc * 10 + digitVal c) cs

/-- Numeric value of a hexadecimal digit character, if it is one. -/
def hexVal (c : Char) : Option Nat :=
  if c.isDigit then some (digitVal c)
  else if 'a' ≤ c ∧ c ≤ 'f' then some (c.toNat - 'a'.toNat + 10)
  else if 'A' ≤ c ∧ c ≤ 'F' then some (c.toNat - 'A'.toNat + 10)
  else none

/-- Decode a single-character JSON string escape. -/
def escChar : Char → Option Char
  | '"' => some '"'
  | '\\' => some '\\'
  | '/' => some '/'
  | 'b' => some '\x08'
  | 'f' => some '\x0c'
  | 'n' => some '\n'
  | 'r' => some '\r'
  | 't' => some '\t'
  | _ => none

/-- Parse the body of a JSON string (after the opening quote), returning the
decoded characters and the input remaining after the closing quote. -/
def parseStringBody : Nat → List Char → Option (List Char × List Char)
  | 0, _ => none
  | _ + 1, [] => none
  | fuel + 1, c :: rest =>
    if c = '"' then some ([], rest)
    else if c = '\\' then
      match rest with
      | [] => none
      | e :: rest2 =>
        match escChar e with
        | some d => (parseStringBody fuel rest2).map (fun p => (d :: p.1, p.2))
        | none =>
          if e = 'u' then
            match rest2 with
            | h1 :: h2 :: h3 :: h4 :: rest3 =>
              match hexVal h1, hexVal h2, hexVal h3, hexVal h4 with
              | some a, some b, some c', some d =>
                (parseStringBody fuel rest3).map
                  (fun p => (Char.ofNat (((a * 16 + b) * 16 + c') * 16 + d) :: p.1, p.2))
              | _, _, _, _ => none
            | _ => none
          else none
    else if c.toNat < 0x20 then none
    else (parseStringBody fuel rest).map (fun p => (c :: p.1, p.2))

/-- Parse an optional fraction part: extend the integer-part digits into a
decimal mantissa, counting the fraction digits. -/
def parseFracDigits (ip : Nat) (s : List Char) : Option ((Nat × Nat) × List Char) :=
  match s with
  | '.' :: rest =>
    let ds := rest.takeWhile Char.isDigit
    if ds = [] then none
    else some ((digitsToNat ip ds, ds.length), rest.dropWhile Char.isDigit)
  | _ => some ((ip, 0), s)

/-- Parse an optional exponent part, returning the signed exponent. -/
def parseExpPart (s : List Char) : Option (Int × List Char) :=
  match s with
  | [] => some (0, [])
  | c :: rest =>
    if c = 'e' ∨ c = 'E' then
      let sr : Int × List Char :=
        match rest with
        | '+' :: r => (1, r)
        | '-' :: r => (-1, r)
        | _ => (1, rest)
      let ds := sr.2.takeWhile Char.isDigit
      if ds = [] then none
      else some (sr.1 * (digitsToNat 0 ds : Int), sr.2.dropWhile Char.isDigit)
    else some (0, s)

/-- Parse the fraction and exponent parts following the integer part,
yielding the number as `(mantissa, exp10)`. -/
def parseNumTail (sign : Int) (ip : Nat) (s : List Char) :
    Option ((Int × Int) × List Char) := do
  let (mf, s1) ← parseFracDigits ip s
  let (e, s2) ← parseExpPart s1
  pure ((sign * (mf.1 : Int), e - (mf.2 : Int)), s2)

/-- Parse a JSON number (grammar `-? (0 | [1-9][0-9]*) frac? exp?`). -/
def parseNumberChars (s : List Char) : Option ((Int × Int) × List Char) :=
  let sr : Int × List Char :=
    match s with
    | '-' :: rest => (-1, rest)
    | _ => (1, s)
  match sr.2 with
  | [] => none
  | c :: rest =>
    if c = '0' then parseNumTail sr.1 0 rest
    else if c.isDigit then
      parseNumTail sr.1
        (digitsToNat (digitVal c) (rest.takeWhile Char.isDigit))
        (rest.dropWhile Char.isDigit)
    else none

/-- What the recursive-descent parser is currently parsing: a value, the
items of an array after `[`, or the fields of an object after `{`. -/
inductive PMode where
  | val : PMode
  | arrItems : PMode
  | objItems : PMode

/-- Recursive-descent JSON parser.  In `val` mode it parses one value after
skipping leading whitespace; in `arrItems` (resp. `objItems`) mode it parses
the comma-separated items of an array up to `]` (resp. the
`"key": value` fields of an object up to `}`), returning them wrapped in
`Json.arr` (resp. `Json.obj`). -/
def parseJ : Nat → PMode → List Char → Option (Json × List Char)
  | 0, _, _ => none
  | fuel + 1, PMode.val, s0 =>
    match skipWsJ s0 with
    | [] => none
    | '"' :: rest =>
      (parseStringBody (rest.length + 1) rest).map (fun p => (Json.str p.1, p.2))
    | '[' :: rest =>
      match skipWsJ rest with
      | ']' :: r => some (Json.arr [], r)
      | s1 => parseJ fuel PMode.arrItems s1
    | '{' :: rest =>
      match skipWsJ rest with
      | '}' :: r => some (Json.obj [], r)
      | s1 => parseJ fuel PMode.objItems s1
    | 'n' :: 'u' :: 'l' :: 'l' :: r => some (Json.null, r)
    | 't' :: 'r' :: 'u' :: 'e' :: r => some (Json.bool true, r)
    | 'f' :: 'a' :: 'l' :: 's' :: 'e' :: r => some (Json.bool false, r)
    | s1 => (parseNumberChars s1).map (fun p => (Json.num p.1.1 p.1.2, p.2))
  | fuel + 1, PMode.arrItems, s =>
    match parseJ fuel PMode.val s with
    | none => none
    | some (v, r) =>
      match skipWsJ r with
      | ',' :: r2 =>
        match parseJ fuel PMode.arrItems r2 with
        | some (Json.arr vs, r3) => some (Json.arr (v :: vs), r3)
        | _ => none
      | ']' :: r2 => some (Json.arr [v], r2)
      | _ => none
  | fuel + 1, PMode.objItems, s =>
    match skipWsJ s with
    | '"' :: rest =>
      match parseStringBody (rest.length + 1) rest with
      | none => none
      | some (k, r) =>
        match skipWsJ r with
        | ':' :: r2 =>
          match parseJ fuel PMode.val r2 with
          | none => none
          | some (v, r3) =>
            match skipWsJ r3 with
            | ',' :: r4 =>
              match parseJ fuel PMode.objItems r4 with
              | some (Json.obj fs, r5) => some (Json.obj ((k, v) :: fs), r5)
              | _ => none
            | '}' :: r4 => some (Json.obj [(k, v)], r4)
            | _ => none
        | _ => none
    | _ => none

/-- Model of `JSON.parse`: parse one JSON value; only trailing whitespace may
remain.  `none` models the thrown `SyntaxError`. -/
def jsonParse (s : List Char) : Option Json :=
  match parseJ (s.length + 1) PMode.val s with
  | some (v, rest) => if skipWsJ rest = [] then some v else none
  | none => none

/-! ## The streaming client `processQueryStream` (src/frontend/lib/api.ts)

The reader loop is embedded as a pure function over the list of decoded text
chunks (the `TextDecoder` with `stream: true` re-assembles split UTF-8
sequences; chunk boundaries are therefore modelled at character granularity).
`onEvent` callbacks become the returned list of parsed JSON values, in call
order. -/

/-- One loop body frame: `trim`, check the `data:` tag, slice it off, `trim`
again, then `JSON.parse` inside try/catch (`none` models both the `continue`
on a missing tag and the `continue` on a parse error). -/
def partEvent (part : List Char) : Option Json :=
  let trimmed := trimChars part
  if List.isPrefixOf "data:".toList trimmed then
    jsonParse (trimChars (trimmed.drop 5))
  else none

/-- Events produced by iterating the loop body over a list of frames. -/
def frameEvents (parts : List (List Char)) : List Json :=
  parts.filterMap partEvent

/-- The `while (true)` reader loop: append the chunk to the buffer, split on
`'\n\n'`, pop the last piece back into the buffer, process the rest.  On
`done` the residual buffer is discarded (the source never flushes it). -/
def processStream : List Char → List (List Char) → List Json
  | _, [] => []
  | buffer, chunk :: chunks =>
    frameEvents (initParts (splitNN (buffer ++ chunk))) ++
      processStream (lastD (splitNN (buffer ++ chunk))) chunks

/-- `processQueryStream`, as a function from the response-body chunks to the
ordered list of events passed to `onEvent`. -/
def processQueryStream (chunks : List (List Char)) : List Json :=
  processStream [] chunks

theorem initParts_append (xs ys : List (List Char)) (hy : ys ≠ []) :
    initParts (xs ++ ys) = xs ++ initParts ys := by
  induction xs with
  | nil => rfl
  | cons x xs ih =>
    cases hxy : xs ++ ys with
    | nil => exact absurd (List.append_eq_nil.mp hxy).2 hy
    | cons z zs =>
      show initParts (x :: (xs ++ ys)) = x :: (xs ++ initParts ys)
      rw [hxy, initParts, ← hxy, ih]

/-- Invariant of the reader loop: starting from a separator-free buffer, the
events delivered are exactly those of the frames preceding the last `'\n\n'`
of the whole remaining input. -/
theorem processStream_spec (chunks : List (List Char)) (buffer : List Char)
    (hb : splitNN buffer = [buffer]) :
    processStream buffer chunks =
      frameEvents (initParts (splitNN (buffer ++ chunks.flatten))) := by
  induction chunks generalizing buffer with
  | nil =>
    simp only [processStream, List.flatten_nil, List.append_nil, hb, initParts,
      frameEvents, List.filterMap_nil]
  | cons c cs ih =>
    rw [processStream, ih (lastD (splitNN (buffer ++ c))) (splitNN_lastD _),
      List.flatten_cons, ← List.append_assoc,
      splitNN_append (buffer ++ c) cs.flatten,
      initParts_append _ _ (splitNN_ne_nil _)]
    simp only [frameEvents, List.filterMap_append]

/-- The whole run: events are the frames of the full body text, with anything
after the last `'\n\n'` discarded, independently of chunking. -/
theorem processQueryStream_eq (chunks : List (List Char)) :
    processQueryStream chunks =
      frameEvents (initParts (splitNN chunks.flatten)) :=
  processStream_spec chunks [] rfl

/-- Whether a string contains the frame separator `'\n\n'`. -/
def hasNN : List Char → Bool
  | [] => false
  | [_] => false
  | c₁ :: c₂ :: rest => (c₁ = '\n' && c₂ = '\n') || hasNN (c₂ :: rest)

/-- A separator-free string that does not end in `'\n'` forms exactly one
piece in front of an explicit separator. -/
theorem splitNN_sepFree_append (a b : List Char) (ha : hasNN a = false)
    (hl : a.getLast? ≠ some '\n') :
    splitNN (a ++ '\n' :: '\n' :: b) = a :: splitNN b := by
  induction a using hasNN.induct with
  | case1 =>
    show splitNN ('\n' :: '\n' :: b) = [] :: splitNN b
    rw [splitNN, if_pos ⟨rfl, rfl⟩]
  | case2 c =>
    have hc : ¬(c = '\n') := by simpa using hl
    show splitNN (c :: '\n' :: '\n' :: b) = [c] :: splitNN b
    rw [splitNN, if_neg (by exact fun h => hc h.1), splitNN, if_pos ⟨rfl, rfl⟩,
      consHead]
  | case3 c₁ c₂ rest ih =>
    simp only [hasNN, Bool.or_eq_false_iff, Bool.and_eq_false_iff,
      decide_eq_false_iff_not] at ha
    have hsep : ¬(c₁ = '\n' ∧ c₂ = '\n') := by
      intro ⟨h1, h2⟩
      rcases ha.1 with h | h
      · exact h h1
      · exact h h2
    have hne : (c₂ :: rest) ++ '\n' :: '\n' :: b = c₂ :: (rest ++ '\n' :: '\n' :: b) := rfl
    have ihh := ih ha.2 (by
      rw [List.getLast?_cons_cons] at hl
      exact hl)
    show splitNN (c₁ :: c₂ :: (rest ++ '\n' :: '\n' :: b)) =
      (c₁ :: c₂ :: rest) :: splitNN b
    rw [splitNN, if_neg hsep, ← hne, ihh, consHead]

/-- The wire text consisting of the given frames, each terminated by the
`'\n\n'` separator. -/
def wireOf (frames : List (List Char)) : List Char :=
  (frames.map (fun f => f ++ ['\n', '\n'])).flatten

theorem splitNN_wire (frames : List (List Char))
    (h : ∀ f ∈ frames, hasNN f = false ∧ f.getLast? ≠ some '\n') :
    splitNN (wireOf frames) = frames ++ [[]] := by
  induction frames with
  | nil => rfl
  | cons f fs ih =>
    have hf := h f (List.mem_cons_self f fs)
    have hw : wireOf (f :: fs) = f ++ '\n' :: '\n' :: wireOf fs := by
      simp [wireOf]
    rw [hw, splitNN_sepFree_append f (wireOf fs) hf.1 hf.2,
      ih (fun g hg => h g (List.mem_cons_of_mem f hg))]
    rfl

/-- A stream whose body is a well-formed sequence of separator-terminated
frames delivers exactly the events of those frames, in order. -/
theorem processQueryStream_wire (frames : List (List Char))
    (h : ∀ f ∈ frames, hasNN f = false ∧ f.getLast? ≠ some '\n') :
    processQueryStream [wireOf frames] = frameEvents frames := by
  rw [processQueryStream_eq]
  have hfl : ([wireOf frames] : List (List Char)).flatten = wireOf frames := by
    simp
  rw [hfl, splitNN_wire frames h, initParts_append _ _ (by simp)]
  show frameEvents (frames ++ initParts [[]]) = frameEvents frames
  simp [initParts, frameEvents]

theorem trimChars_eq_self (s : List Char)
    (hh : s.head?.all (fun c => !jsWhitespaceChar c) = true)
    (hl : s.getLast?.all (fun c => !jsWhitespaceChar c) = true) :
    trimChars s = s := by
  unfold trimChars
  cases s with
  | nil => rfl
  | cons a t =>
    have ha : jsWhitespaceChar a = false := by
      simpa using hh
    rw [List.dropWhile_cons, ha]
    simp only [Bool.false_eq_true, if_false]
    cases hr : (a :: t).reverse with
    | nil => simp at hr
    | cons b u =>
      have hb : (a :: t).getLast? = some b := by
        rw [List.getLast?_eq_head?_reverse, hr]
        rfl
      have hbw : jsWhitespaceChar b = false := by
        rw [hb] at hl
        simpa using hl
      rw [List.dropWhile_cons, hbw]
      simp only [Bool.false_eq_true, if_false]
      rw [← hr, List.reverse_reverse]

theorem trimChars_cons_ws (c : Char) (p : List Char)
    (hc : jsWhitespaceChar c = true) : trimChars (c :: p) = trimChars p := by
  unfold trimChars
  rw [List.dropWhile_cons, hc]
  simp

/-- `hasNN` ignores the separator-free `"data: "` tag. -/
theorem hasNN_data (p : List Char) :
    hasNN ("data: ".toList ++ p) = hasNN p := by
  cases p with
  | nil => rfl
  | cons c t => rfl

/-- Processing one well-formed `data:` frame parses exactly its payload. -/
theorem framePartEvent (p : List Char) (hp : p ≠ [])
    (hh : p.head?.all (fun c => !jsWhitespaceChar c) = true)
    (hl : p.getLast?.all (fun c => !jsWhitespaceChar c) = true) :
    partEvent ("data: ".toList ++ p) = jsonParse p := by
  have hhead : ("data: ".toList ++ p).head?.all
      (fun c => !jsWhitespaceChar c) = true := rfl
  have hlast2 : ("data: ".toList ++ p).getLast? = p.getLast? := by
    rw [List.getLast?_append]
    cases hp2 : p.getLast? with
    | none =>
      cases p with
      | nil => exact absurd rfl hp
      | cons a t => simp at hp2
    | some c => rfl
  have hlast : ("data: ".toList ++ p).getLast?.all
      (fun c => !jsWhitespaceChar c) = true := by rw [hlast2]; exact hl
  have htag : List.isPrefixOf "data:".toList ("data: ".toList ++ p) = true := rfl
  have hdrop : ("data: ".toList ++ p).drop 5 = ' ' :: p := rfl
  simp only [partEvent, trimChars_eq_self _ hhead hlast, htag, if_true, hdrop,
    trimChars_cons_ws ' ' p rfl, trimChars_eq_self p hh hl]

/-- Iterating the loop body over well-formed `data:` frames parses the
payloads in order, skipping exactly the unparseable ones. -/
theorem frameEvents_data (payloads : List (List Char))
    (h : ∀ p ∈ payloads, p ≠ [] ∧
      p.head?.all (fun c => !jsWhitespaceChar c) = true ∧
      p.getLast?.all (fun c => !jsWhitespaceChar c) = true) :
    frameEvents (payloads.map (fun p => "data: ".toList ++ p)) =
      payloads.filterMap jsonParse := by
  induction payloads with
  | nil => rfl
  | cons p ps ih =>
    obtain ⟨h1, h2, h3⟩ := h p (List.mem_cons_self p ps)
    have ihh := ih (fun q hq => h q (List.mem_cons_of_mem p hq))
    simp only [List.map_cons, frameEvents, List.filterMap_cons,
      framePartEvent p h1 h2 h3] at ihh ⊢
    rw [ihh]

/-! ## Spec-side wire shape of a StreamEvent (for the refinement claim C3)

Definition following the spec's words: a frame's JSON serializes a
StreamEvent as `{type: "tool", tool: string}` or `{type: "final",
status: "success"|"warning"|"error", result?: string, message?: string,
tool?: string}`. -/

/-- Look up an object field (last occurrence wins, as `JSON.parse` keeps the
last duplicate key). -/
def objField (fields : List (List Char × Json)) (k : List Char) : Option Json :=
  ((fields.filter (fun f => f.1 == k)).getLast?).map Prod.snd

/-- Whether an optional field is absent or a string. -/
def optStringJ : Option Json → Bool
  | none => true
  | some (Json.str _) => true
  | _ => false

/-- Whether a present field is a string. -/
def isStringJ : Option Json → Bool
  | some (Json.str _) => true
  | _ => false

/-- The spec's StreamEvent wire shape, as a predicate on parsed JSON. -/
def streamEventShapeSpec : Json → Bool
  | Json.obj fs =>
    match objField fs "type".toList with
    | some (Json.str t) =>
      if t = "tool".toList then isStringJ (objField fs "tool".toList)
      else if t = "final".toList then
        (match objField fs "status".toList with
         | some (Json.str st) =>
           st = "success".toList ∨ st = "warning".toList ∨ st = "error".toList
         | _ => false) &&
        optStringJ (objField fs "result".toList) &&
        optStringJ (objField fs "message".toList) &&
        optStringJ (objField fs "tool".toList)
      else false
    | _ => false
  | _ => false

/-- Shorthand used only in concrete statements. -/
def toL (s : String) : List Char := s.toList

/-- C1: a wire frame tagged `data:` whose payload after the tag is not valid
JSON produces no `onEvent` call (the catch branch continues the loop), and
all other frames of the stream are delivered exactly as they would be
without it. -/
theorem claim_C1 (pre post : List (List Char)) (bad : List Char)
    (hframes : ∀ f ∈ pre ++ bad :: post,
      hasNN f = false ∧ f.getLast? ≠ some '\n')
    (htag : List.isPrefixOf "data:".toList (trimChars bad) = true)
    (hbad : jsonParse (trimChars ((trimChars bad).drop 5)) = none) :
    processQueryStream [wireOf (pre ++ bad :: post)] =
      processQueryStream [wireOf (pre ++ post)] := by
  have hsub : ∀ f ∈ pre ++ post, hasNN f = false ∧ f.getLast? ≠ some '\n' := by
    intro f hf
    apply hframes
    rcases List.mem_append.mp hf with hm | hm
    · exact List.mem_append.mpr (Or.inl hm)
    · exact List.mem_append.mpr (Or.inr (List.mem_cons_of_mem bad hm))
  rw [processQueryStream_wire _ hframes, processQueryStream_wire _ hsub]
  have hpe : partEvent bad = none := by
    simp only [partEvent, htag, if_true]
    exact hbad
  simp [frameEvents, List.filterMap_append, List.filterMap_cons, hpe]

theorem claim_C1_witness :
    processQueryStream
        [wireOf [toL "data: true", toL "data: oops", toL "data: 1"]] =
      processQueryStream [wireOf [toL "data: true", toL "data: 1"]] :=
  claim_C1 [toL "data: true"] [toL "data: 1"] (toL "data: oops")
    (by decide) (by rfl) (by rfl)

/-- C2: the delivered event sequence depends only on the concatenation of the
reader chunks, never on the chunk boundaries; and the events are exactly
those of the pieces before the last `'\n\n'`, so trailing bytes after the
last separator are never delivered. -/
theorem claim_C2 :
    (∀ chunks1 chunks2 : List (List Char), chunks1.flatten = chunks2.flatten →
      processQueryStream chunks1 = processQueryStream chunks2) ∧
    (∀ chunks : List (List Char),
      processQueryStream chunks =
        frameEvents (initParts (splitNN chunks.flatten))) := by
  refine ⟨fun c1 c2 h => ?_, processQueryStream_eq⟩
  rw [processQueryStream_eq, processQueryStream_eq, h]

theorem claim_C2_witness :
    processQueryStream [toL "data: 4", toL "2\n\nda", toL "ta: true\n\nrest"] =
      processQueryStream [toL "data: 42\n\ndata: true\n\nrest"] :=
  claim_C2.1 _ _ (by rfl)

/-- C3, counterexample: `processQueryStream` does not accept exactly the
frames of the spec's StreamEvent shape — the frame `data: 42` is delivered
to `onEvent` although `42` is not of that shape (the TypeScript cast checks
nothing at runtime). -/
theorem claim_C3_counterexample :
    processQueryStream [toL "data: 42\n\n"] = [Json.num 42 0] ∧
    streamEventShapeSpec (Json.num 42 0) = false :=
  ⟨rfl, rfl⟩

/-- C3, amended: `processQueryStream` accepts every `data:` frame whose
payload parses as JSON — of the spec's StreamEvent shape or not — and passes
the parsed values to `onEvent` in frame order. -/
theorem claim_C3_amended (payloads : List (List Char))
    (h : ∀ p ∈ payloads, p ≠ [] ∧ hasNN p = false ∧
      p.head?.all (fun c => !jsWhitespaceChar c) = true ∧
      p.getLast?.all (fun c => !jsWhitespaceChar c) = true) :
    processQueryStream
        [wireOf (payloads.map (fun p => "data: ".toList ++ p))] =
      payloads.filterMap jsonParse := by
  have hfr : ∀ f ∈ payloads.map (fun p => "data: ".toList ++ p),
      hasNN f = false ∧ f.getLast? ≠ some '\n' := by
    intro f hf
    obtain ⟨p, hp, rfl⟩ := List.mem_map.mp hf
    obtain ⟨h1, h2, h3, h4⟩ := h p hp
    refine ⟨by rw [hasNN_data, h2], ?_⟩
    have hlast2 : ("data: ".toList ++ p).getLast? = p.getLast? := by
      rw [List.getLast?_append]
      cases hp2 : p.getLast? with
      | none =>
        cases p with
        | nil => exact absurd rfl h1
        | cons a t => simp at hp2
      | some c => rfl
    rw [hlast2]
    intro hcon
    rw [hcon] at h4
    simp [jsWhitespaceChar] at h4
  rw [processQueryStream_wire _ hfr,
    frameEvents_data payloads (fun p hp =>
      ⟨(h p hp).1, (h p hp).2.2.1, (h p hp).2.2.2⟩)]

theorem claim_C3_amended_witness :
    processQueryStream
        [wireOf (([toL "42", toL "oops"]).map (fun p => "data: ".toList ++ p))] =
      ([toL "42", toL "oops"]).filterMap jsonParse :=
  claim_C3_amended [toL "42", toL "oops"] (by decide)

/-! ## The non-streaming client (src/frontend/lib/api.ts lines 3–18 and the
`submitQuery` handler of the static HTML client) -/

/-- The status union of the declared TypeScript interface
`ProcessQueryResponse`: `'success' | 'error'`. -/
inductive PQStatus where
  | success : PQStatus
  | error : PQStatus
deriving DecidableEq

/-- The declared TypeScript interface `ProcessQueryResponse`
(`status: 'success' | 'error'; result?; message?; tool?`), which is also the
declared return shape of `processQuery`. -/
structure ProcessQueryResponse where
  status : PQStatus
  result : Option (List Char)
  message : Option (List Char)
  tool : Option (List Char)

/-- The status strings admitted by the declared `ProcessQueryResponse`
status union. -/
def processQueryResponseStatusStrings : List (List Char) :=
  ["success".toList, "error".toList]

/-- What the `submitQuery` handler renders for a response. -/
inductive SubmitDisplay where
  | successView (result : Option (List Char)) : SubmitDisplay
  | warningView (result : Option (List Char)) (message : Option (List Char)) :
      SubmitDisplay
  | errorView (message : Option (List Char)) : SubmitDisplay
deriving DecidableEq

/-- The branch structure of `submitQuery`'s `.then` handler: `'success'`
shows the result, `'warning'` shows the result plus the warning message,
anything else shows an error message. -/
def submitQueryDisplay (status : List Char) (result message : Option (List Char)) :
    SubmitDisplay :=
  if status = "success".toList then SubmitDisplay.successView result
  else if status = "warning".toList then SubmitDisplay.warningView result message
  else SubmitDisplay.errorView message

/-- C4: the claim says the non-streaming response status ranges over
`success | warning | error` and that `processQuery` returns exactly that
shape.  The code disagrees with itself: the declared `ProcessQueryResponse`
union omits `'warning'` (and adds `tool?`), yet the repository's own
`submitQuery` client handles a `'warning'` status from the same endpoint as
a distinct non-error branch — the interface is the slip. -/
theorem claim_C4_code_bug :
    ("warning".toList ∈ processQueryResponseStatusStrings ↔ False) ∧
    (∀ s : PQStatus, s = PQStatus.success ∨ s = PQStatus.error) ∧
    submitQueryDisplay "warning".toList (some (toL "r")) (some (toL "m")) =
      SubmitDisplay.warningView (some (toL "r")) (some (toL "m")) ∧
    submitQueryDisplay "warning".toList (some (toL "r")) (some (toL "m")) ≠
      SubmitDisplay.errorView (some (toL "m")) := by
  refine ⟨by decide, fun s => by cases s <;> simp, by decide, by decide⟩

/-! ## Backend pipeline, modelled from the specification

The backend (location extractor, geocoder adapter, tool registry,
planner/orchestrator, stream emitter) is not among the repository sources —
only its HTTP callers are — so the definitions below are modelled from the
specification's words, as marked on each of them. -/

/-- Modelled from the spec: the terminal statuses exposed to the caller
(`success | warning | error`), carried by the FinalEvent. -/
inductive FinalStatus where
  | success : FinalStatus
  | warning : FinalStatus
  | error : FinalStatus
deriving DecidableEq

/-- Modelled from the spec: `StreamEvent`, a tagged variant over
`ToolEvent(tool name)` and `FinalEvent(status, result or message)`. -/
inductive StreamEvent where
  | tool (name : List Char) : StreamEvent
  | final (status : FinalStatus) (result : Option (List Char))
      (message : Option (List Char)) : StreamEvent
deriving DecidableEq

/-- Modelled from the spec: the source kind of a resolved location. -/
inductive SourceKind where
  | address : SourceKind
  | coords : SourceKind
  | url : SourceKind
deriving DecidableEq

/-- Modelled from the spec: resolution confidence. -/
inductive Confidence where
  | exact : Confidence
  | approximate : Confidence
deriving DecidableEq

/-- Modelled from the spec: `ResolvedLocation` (coordinates are kept as
exact rationals; float rounding is not modelled). -/
structure ResolvedLocation where
  lat : ℚ
  lon : ℚ
  sourceKind : SourceKind
  confidence : Confidence
deriving DecidableEq

/-- Modelled from the spec: `LocationReference`, a tagged variant over
`Address`, `Coordinates` and `MapsURL`. -/
inductive LocationReference where
  | address (span : List Char) : LocationReference
  | coordinates (lat lon : ℚ) : LocationReference
  | mapsUrl (url : List Char) : LocationReference
deriving DecidableEq

/-- Modelled from the spec: parse a decimal number (optional sign, digits,
optional fraction) into an exact rational, returning the rest of the text. -/
def parseDecimal (s : List Char) : Option (ℚ × List Char) :=
  let sr : Int × List Char :=
    match s with
    | '-' :: r => (-1, r)
    | _ => (1, s)
  let ds := sr.2.takeWhile Char.isDigit
  if ds = [] then none
  else
    match sr.2.dropWhile Char.isDigit with
    | '.' :: r2 =>
      let fs := r2.takeWhile Char.isDigit
      if fs = [] then
        some (mkRat (sr.1 * (digitsToNat 0 ds : Int)) 1, sr.2.dropWhile Char.isDigit)
      else
        some (mkRat (sr.1 * (digitsToNat (digitsToNat 0 ds) fs : Int)) (10 ^ fs.length),
          r2.dropWhile Char.isDigit)
    | rest => some (mkRat (sr.1 * (digitsToNat 0 ds : Int)) 1, rest)

/-- Modelled from the spec: at the current position, parse a pair of decimal
numbers plausible as latitude/longitude — first in `[-90, 90]`, second in
`[-180, 180]`, separated by a comma and optional whitespace. -/
def parsePairAt (s : List Char) : Option (ℚ × ℚ) := do
  let (lat, r1) ← parseDecimal s
  match r1.dropWhile jsWhitespaceChar with
  | ',' :: r3 => do
    let (lon, _) ← parseDecimal (r3.dropWhile jsWhitespaceChar)
    if -90 ≤ lat ∧ lat ≤ 90 ∧ -180 ≤ lon ∧ lon ≤ 180 then
      some (lat, lon)
    else none
  | _ => none

/-- Modelled from the spec: left-to-right scan for the first position at
which a plausible latitude/longitude pair parses. -/
def scanCoords : List Char → Option (ℚ × ℚ)
  | [] => none
  | c :: rest =>
    match parsePairAt (c :: rest) with
    | some p => some p
    | none => scanCoords rest

/-- Whether `needle` occurs as a contiguous subsequence. -/
def containsSeq (needle : List Char) : List Char → Bool
  | [] => List.isPrefixOf needle []
  | c :: t => List.isPrefixOf needle (c :: t) || containsSeq needle t

/-- Modelled from the spec: find a map-service URL — an `http` span running
to the next whitespace that mentions `maps` and carries a `q=` parameter or
a path-embedded `lat,lon`. -/
def findMapsUrl : List Char → Option (List Char)
  | [] => none
  | c :: t =>
    if List.isPrefixOf "http".toList (c :: t) then
      let span := (c :: t).takeWhile (fun ch => !jsWhitespaceChar ch)
      if containsSeq "maps".toList span &&
          (containsSeq "q=".toList span || (scanCoords span).isSome) then
        some span
      else findMapsUrl t
    else findMapsUrl t

/-- Modelled from the spec: sentence boundaries ending an address span. -/
def sentenceEnd (c : Char) : Bool := c = '.' || c = '?' || c = '!'

/-- Modelled from the spec: the location-indicating prepositions, longest
first. -/
def prepositions : List (List Char) :=
  ["nearby".toList, "near".toList, "around".toList, "in".toList, "at".toList]

/-- If the text starts with a preposition word followed by whitespace,
return the text after that whitespace. -/
def prepRest (s : List Char) : Option (List Char) :=
  match (prepositions.filterMap
      (fun p => if List.isPrefixOf p s then some (s.drop p.length) else none)).head? with
  | some r =>
    match r with
    | c :: _ => if jsWhitespaceChar c then some (r.dropWhile jsWhitespaceChar) else none
    | [] => none
  | none => none

/-- Scan for the first preposition at a word boundary; the address span runs
from after it to a sentence boundary. -/
def findAddressAux : Bool → List Char → Option (List Char)
  | _, [] => none
  | atBoundary, c :: t =>
    if atBoundary then
      match prepRest (c :: t) with
      | some r => some (trimChars (r.takeWhile (fun ch => !sentenceEnd ch)))
      | none => findAddressAux (jsWhitespaceChar c) t
    else findAddressAux (jsWhitespaceChar c) t

/-- Modelled from the spec: the address rule — the substring following a
location-indicating preposition up to a sentence boundary. -/
def findAddress (s : List Char) : Option (List Char) :=
  match findAddressAux true s with
  | some r => if r = [] then none else some r
  | none => none

/-- Modelled from the spec: `extract(text) -> LocationReference | None`,
first match wins in the order map-URL, coordinate pair, address. -/
def extract (text : List Char) : Option LocationReference :=
  match findMapsUrl text with
  | some u => some (LocationReference.mapsUrl u)
  | none =>
    match scanCoords text with
    | some p => some (LocationReference.coordinates p.1 p.2)
    | none =>
      match findAddress text with
      | some a => some (LocationReference.address a)
      | none => none

/-- Modelled from the spec: `GeocodeFailure`. -/
inductive GeocodeFailure where
  | geocodeFailure : GeocodeFailure
deriving DecidableEq

/-- Modelled from the spec: the external geocoding capability's report —
coordinates plus whether the reported precision reaches locality level. -/
structure GeoResult where
  lat : ℚ
  lon : ℚ
  precisionLocality : Bool

/-- Modelled from the spec: `ToolSpec` (input/output schemas abstracted to
the payload strings used by the orchestrator). -/
structure ToolSpec where
  name : List Char
  idempotent : Bool
deriving DecidableEq

/-- Modelled from the spec: `ToolInvocation`, an append-only history entry. -/
structure ToolInvocation where
  tool : List Char
  input : List Char
  output : List Char
  seqIndex : Nat
deriving DecidableEq

/-- Modelled from the spec: the planner's decision,
`invoke(tool, input) | answer(text)`. -/
inductive NextAction where
  | invoke (tool input : List Char) : NextAction
  | answer (text : List Char) : NextAction

/-- Modelled from the spec: the external collaborators of one run — the
geocoding capability (`none` = no match or retries exhausted), the external
tool executor, the LLM planning capability, the answer synthesizer, plus the
read-only tool registry and the step limit (default 5). -/
structure Env where
  geocode : List Char → Option GeoResult
  callTool : List Char → List Char → List Char
  plan : List Char → Option ResolvedLocation → List ToolInvocation → NextAction
  synth : List Char → List ToolInvocation → List Char
  registry : List ToolSpec
  stepLimit : Nat := 5

/-- Modelled from the spec: `resolve(ref) -> ResolvedLocation` —
`Coordinates`/`MapsURL` resolve by pure parsing with confidence `exact`;
`Address` goes through one external geocode call, rejecting sub-locality
precision; failures are `GeocodeFailure`. -/
def resolveRef (env : Env) : LocationReference → Except GeocodeFailure ResolvedLocation
  | LocationReference.coordinates lat lon =>
    Except.ok ⟨lat, lon, SourceKind.coords, Confidence.exact⟩
  | LocationReference.mapsUrl u =>
    match scanCoords u with
    | some p => Except.ok ⟨p.1, p.2, SourceKind.url, Confidence.exact⟩
    | none => Except.error GeocodeFailure.geocodeFailure
  | LocationReference.address a =>
    match env.geocode a with
    | some g =>
      if g.precisionLocality then
        Except.ok ⟨g.lat, g.lon, SourceKind.address, Confidence.approximate⟩
      else Except.error GeocodeFailure.geocodeFailure
    | none => Except.error GeocodeFailure.geocodeFailure

/-- How the planning loop ended. -/
inductive LoopOutcome where
  | answered (text : List Char) : LoopOutcome
  | limitHit : LoopOutcome
  | unknownTool (name : List Char) : LoopOutcome
deriving DecidableEq

/-- State accumulated by the planning loop: the append-only history, the log
of external tool calls actually made, and the tool names announced as
ToolEvents, all in order. -/
structure LoopResult where
  history : List ToolInvocation
  callLog : List (List Char × List Char)
  toolEvents : List (List Char)
  outcome : LoopOutcome
deriving DecidableEq

/-- Modelled from the spec: the `Planning → AwaitingTool → Planning` loop.
Each iteration asks the planner for one action; a requested tool absent from
the registry is `UnknownTool` and fatal; a tool/input pair already in the
run-local history is served from that history without an external call;
otherwise the external tool runs once and both history and call log grow.
A `ToolEvent` announcing the tool is emitted before each invocation.  The
fuel starts at the step limit; exhausting it is `limitHit`. -/
def runLoop (env : Env) (q : List Char) (loc : Option ResolvedLocation) :
    Nat → List ToolInvocation → List (List Char × List Char) →
      List (List Char) → LoopResult
  | 0, hist, callLog, evs => ⟨hist, callLog, evs, LoopOutcome.limitHit⟩
  | fuel + 1, hist, callLog, evs =>
    match env.plan q loc hist with
    | NextAction.answer t => ⟨hist, callLog, evs, LoopOutcome.answered t⟩
    | NextAction.invoke tool input =>
      if tool ∈ env.registry.map ToolSpec.name then
        match hist.find? (fun inv => inv.tool == tool && inv.input == input) with
        | some prior =>
          runLoop env q loc fuel
            (hist ++ [⟨tool, input, prior.output, hist.length⟩])
            callLog (evs ++ [tool])
        | none =>
          runLoop env q loc fuel
            (hist ++ [⟨tool, input, env.callTool tool input, hist.length⟩])
            (callLog ++ [(tool, input)]) (evs ++ [tool])
      else ⟨hist, callLog, evs, LoopOutcome.unknownTool tool⟩

/-- The outcome of one whole orchestration run, as seen by the caller. -/
structure RunResult where
  status : FinalStatus
  events : List StreamEvent
  history : List ToolInvocation
  callLog : List (List Char × List Char)
  limitHit : Bool
  result : Option (List Char)
  message : Option (List Char)
deriving DecidableEq

/-- Modelled from the spec: the warning message flagging that the location
could not be pinned down. -/
def geocodeWarningMsg : List Char :=
  "The location could not be pinned down; answering generically.".toList

/-- Modelled from the spec: the error message when no usable answer is
derivable. -/
def noAnswerMsg : List Char := "No usable answer could be produced.".toList

/-- Modelled from the spec: the error message for a planner request naming
an unregistered tool. -/
def unknownToolMsg : List Char := "The planner requested an unknown tool.".toList

/-- Modelled from the spec: the planning/synthesis phases after location
resolution.  The planner loop runs under the step limit; `UnknownTool` is
fatal; a planner answer or a forced synthesis at the limit succeeds if the
final answer is non-empty, and a run that reaches the limit with an empty
history fails. -/
def runPhase2 (env : Env) (q : List Char) (loc : Option ResolvedLocation) :
    RunResult :=
  let r := runLoop env q loc env.stepLimit [] [] []
  match r.outcome with
  | LoopOutcome.unknownTool _ =>
    { status := FinalStatus.error
      events := r.toolEvents.map StreamEvent.tool ++
        [StreamEvent.final FinalStatus.error none (some unknownToolMsg)]
      history := r.history, callLog := r.callLog, limitHit := false
      result := none, message := some unknownToolMsg }
  | LoopOutcome.answered t =>
    if t = [] then
      { status := FinalStatus.error
        events := r.toolEvents.map StreamEvent.tool ++
          [StreamEvent.final FinalStatus.error none (some noAnswerMsg)]
        history := r.history, callLog := r.callLog, limitHit := false
        result := none, message := some noAnswerMsg }
    else
      { status := FinalStatus.success
        events := r.toolEvents.map StreamEvent.tool ++
          [StreamEvent.final FinalStatus.success (some t) none]
        history := r.history, callLog := r.callLog, limitHit := false
        result := some t, message := none }
  | LoopOutcome.limitHit =>
    if r.history = [] then
      { status := FinalStatus.error
        events := r.toolEvents.map StreamEvent.tool ++
          [StreamEvent.final FinalStatus.error none (some noAnswerMsg)]
        history := r.history, callLog := r.callLog, limitHit := true
        result := none, message := some noAnswerMsg }
    else
      let ans := env.synth q r.history
      if ans = [] then
        { status := FinalStatus.error
          events := r.toolEvents.map StreamEvent.tool ++
            [StreamEvent.final FinalStatus.error none (some noAnswerMsg)]
          history := r.history, callLog := r.callLog, limitHit := true
          result := none, message := some noAnswerMsg }
      else
        { status := FinalStatus.success
          events := r.toolEvents.map StreamEvent.tool ++
            [StreamEvent.final FinalStatus.success (some ans) none]
          history := r.history, callLog := r.callLog, limitHit := true
          result := some ans, message := none }

/-- Modelled from the spec: one orchestration run.  Extraction feeds
resolution; `GeocodeFailure` sends the run to `Warning` — it continues,
answering generically without coordinates, and flags that the location
could not be pinned down (failing only if no generic answer is derivable
at all); otherwise the planner loop runs. -/
def runOrchestration (env : Env) (q : List Char) : RunResult :=
  match extract q with
  | none => runPhase2 env q none
  | some r =>
    match resolveRef env r with
    | Except.ok loc => runPhase2 env q (some loc)
    | Except.error _ =>
      let ans := env.synth q []
      if ans = [] then
        { status := FinalStatus.error
          events := [StreamEvent.final FinalStatus.error none (some noAnswerMsg)]
          history := [], callLog := [], limitHit := false
          result := none, message := some noAnswerMsg }
      else
        { status := FinalStatus.warning
          events := [StreamEvent.final FinalStatus.warning (some ans)
            (some geocodeWarningMsg)]
          history := [], callLog := [], limitHit := false
          result := some ans, message := some geocodeWarningMsg }

theorem runPhase2_events (env : Env) (q : List Char)
    (loc : Option ResolvedLocation) :
    ∃ tools : List (List Char),
      (runPhase2 env q loc).events =
        tools.map StreamEvent.tool ++
          [StreamEvent.final (runPhase2 env q loc).status
            (runPhase2 env q loc).result (runPhase2 env q loc).message] := by
  cases houtcome : (runLoop env q loc env.stepLimit [] [] []).outcome with
  | answered t =>
    by_cases ht : t = []
    · simp only [runPhase2, houtcome, ht, if_true]
      exact ⟨_, rfl⟩
    · simp only [runPhase2, houtcome, if_neg ht]
      exact ⟨_, rfl⟩
  | limitHit =>
    by_cases hh : (runLoop env q loc env.stepLimit [] [] []).history = []
    · simp only [runPhase2, houtcome, hh, if_true]
      exact ⟨_, rfl⟩
    · by_cases ha : env.synth q (runLoop env q loc env.stepLimit [] [] []).history = []
      · simp only [runPhase2, houtcome, if_neg hh, ha, if_true]
        exact ⟨_, rfl⟩
      · simp only [runPhase2, houtcome, if_neg hh, if_neg ha]
        exact ⟨_, rfl⟩
  | unknownTool n =>
    simp only [runPhase2, houtcome]
    exact ⟨_, rfl⟩

/-- C5: every run's event sequence is zero or more ToolEvents followed by
exactly one FinalEvent — the last event — and the FinalEvent carries the
run's terminal status (and its result/message). -/
theorem claim_C5 (env : Env) (q : List Char) :
    ∃ tools : List (List Char),
      (runOrchestration env q).events =
        tools.map StreamEvent.tool ++
          [StreamEvent.final (runOrchestration env q).status
            (runOrchestration env q).result (runOrchestration env q).message] := by
  cases hex : extract q with
  | none =>
    simp only [runOrchestration, hex]
    exact runPhase2_events env q none
  | some r =>
    cases hres : resolveRef env r with
    | ok loc =>
      simp only [runOrchestration, hex, hres]
      exact runPhase2_events env q (some loc)
    | error e =>
      by_cases ha : env.synth q [] = []
      · simp only [runOrchestration, hex, hres, ha, if_true]
        exact ⟨[], rfl⟩
      · simp only [runOrchestration, hex, hres, if_neg ha]
        exact ⟨[], rfl⟩

/-- C6: when a location reference is extracted but geocoding fails, the run
terminates as `warning` — not `error` — with the could-not-pin-down message
and a non-empty generic answer as its result. -/
theorem claim_C6 (env : Env) (q : List Char) (r : LocationReference)
    (hex : extract q = some r)
    (hfail : resolveRef env r = Except.error GeocodeFailure.geocodeFailure)
    (hsynth : env.synth q [] ≠ []) :
    (runOrchestration env q).status = FinalStatus.warning ∧
    (runOrchestration env q).message = some geocodeWarningMsg ∧
    (runOrchestration env q).result = some (env.synth q []) ∧
    (runOrchestration env q).result ≠ some [] := by
  refine ⟨?_, ?_, ?_, ?_⟩ <;>
    simp [runOrchestration, hex, hfail, if_neg hsynth, hsynth]

/-- A concrete environment whose geocoder never matches. -/
def envC6 : Env :=
  { geocode := fun _ => none
    callTool := fun _ _ => []
    plan := fun _ _ _ => NextAction.answer "x".toList
    synth := fun _ _ => "generic best-effort answer".toList
    registry := []
    stepLimit := 5 }

theorem claim_C6_witness :
    (runOrchestration envC6 (toL "Hospitals around Nowhereville12345")).status =
        FinalStatus.warning ∧
    (runOrchestration envC6 (toL "Hospitals around Nowhereville12345")).message =
        some geocodeWarningMsg ∧
    (runOrchestration envC6 (toL "Hospitals around Nowhereville12345")).result =
        some (envC6.synth (toL "Hospitals around Nowhereville12345") []) ∧
    (runOrchestration envC6 (toL "Hospitals around Nowhereville12345")).result ≠
        some [] :=
  claim_C6 envC6 (toL "Hospitals around Nowhereville12345")
    (LocationReference.address (toL "Nowhereville12345")) rfl rfl (by decide)

/-- The run-local caching discipline: the external call log is duplicate-free
and mirrors the history's tool/input pairs, and every observation's output is
what the external tool returns for its pair. -/
def histLogOK (env : Env) (hist : List ToolInvocation)
    (callLog : List (List Char × List Char)) : Prop :=
  callLog.Nodup ∧
  (∀ inv ∈ hist, inv.output = env.callTool inv.tool inv.input) ∧
  (∀ inv ∈ hist, (inv.tool, inv.input) ∈ callLog) ∧
  (∀ p ∈ callLog, ∃ inv ∈ hist, (inv.tool, inv.input) = p)

theorem histLogOK_cached (env : Env) (hist : List ToolInvocation)
    (callLog : List (List Char × List Char)) (tool input : List Char)
    (prior : ToolInvocation) (h : histLogOK env hist callLog)
    (hfind : hist.find? (fun inv => inv.tool == tool && inv.input == input) =
      some prior) :
    histLogOK env (hist ++ [⟨tool, input, prior.output, hist.length⟩]) callLog := by
  obtain ⟨hnd, hout, hmem, hexist⟩ := h
  have hp := List.find?_some hfind
  have hpm := List.mem_of_find?_eq_some hfind
  rw [Bool.and_eq_true, beq_iff_eq, beq_iff_eq] at hp
  refine ⟨hnd, ?_, ?_, ?_⟩
  · intro inv hinv
    rcases List.mem_append.mp hinv with hm | hm
    · exact hout inv hm
    · rw [List.mem_singleton] at hm
      subst hm
      show prior.output = env.callTool tool input
      rw [← hp.1, ← hp.2]
      exact hout prior hpm
  · intro inv hinv
    rcases List.mem_append.mp hinv with hm | hm
    · exact hmem inv hm
    · rw [List.mem_singleton] at hm
      subst hm
      show (tool, input) ∈ callLog
      rw [← hp.1, ← hp.2]
      exact hmem prior hpm
  · intro p hpl
    obtain ⟨inv, hi, he⟩ := hexist p hpl
    exact ⟨inv, List.mem_append.mpr (Or.inl hi), he⟩

theorem histLogOK_new (env : Env) (hist : List ToolInvocation)
    (callLog : List (List Char × List Char)) (tool input : List Char)
    (h : histLogOK env hist callLog)
    (hfind : hist.find? (fun inv => inv.tool == tool && inv.input == input) =
      none) :
    histLogOK env (hist ++ [⟨tool, input, env.callTool tool input, hist.length⟩])
      (callLog ++ [(tool, input)]) := by
  obtain ⟨hnd, hout, hmem, hexist⟩ := h
  have hfn := List.find?_eq_none.mp hfind
  have hnotin : (tool, input) ∉ callLog := by
    intro hin
    obtain ⟨inv, hi, he⟩ := hexist _ hin
    apply hfn inv hi
    have ht : inv.tool = tool := congrArg Prod.fst he
    have hi2 : inv.input = input := congrArg Prod.snd he
    simp [ht, hi2]
  refine ⟨?_, ?_, ?_, ?_⟩
  · simp [List.nodup_append, hnd, hnotin]
  · intro inv hinv
    rcases List.mem_append.mp hinv with hm | hm
    · exact hout inv hm
    · rw [List.mem_singleton] at hm
      subst hm
      rfl
  · intro inv hinv
    rcases List.mem_append.mp hinv with hm | hm
    · exact List.mem_append.mpr (Or.inl (hmem inv hm))
    · rw [List.mem_singleton] at hm
      subst hm
      exact List.mem_append.mpr (Or.inr (List.mem_singleton.mpr rfl))
  · intro p hpl
    rcases List.mem_append.mp hpl with hm | hm
    · obtain ⟨inv, hi, he⟩ := hexist p hm
      exact ⟨inv, List.mem_append.mpr (Or.inl hi), he⟩
    · rw [List.mem_singleton] at hm
      subst hm
      exact ⟨⟨tool, input, env.callTool tool input, hist.length⟩,
        List.mem_append.mpr (Or.inr (List.mem_singleton.mpr rfl)), rfl⟩

theorem runLoop_inv (env : Env) (q : List Char) (loc : Option ResolvedLocation)
    (fuel : Nat) :
    ∀ hist callLog evs, histLogOK env hist callLog →
      histLogOK env (runLoop env q loc fuel hist callLog evs).history
        (runLoop env q loc fuel hist callLog evs).callLog := by
  induction fuel with
  | zero => intro hist callLog evs h; exact h
  | succ fuel ih =>
    intro hist callLog evs h
    cases hplan : env.plan q loc hist with
    | answer t => simp only [runLoop, hplan]; exact h
    | invoke tool input =>
      by_cases hmem : tool ∈ env.registry.map ToolSpec.name
      · cases hfind : hist.find? (fun inv => inv.tool == tool && inv.input == input) with
        | some prior =>
          simp only [runLoop, hplan, if_pos hmem, hfind]
          exact ih _ _ _ (histLogOK_cached env hist callLog tool input prior h hfind)
        | none =>
          simp only [runLoop, hplan, if_pos hmem, hfind]
          exact ih _ _ _ (histLogOK_new env hist callLog tool input h hfind)
      · simp only [runLoop, hplan, if_neg hmem]
        exact h

theorem count_le_one_of_nodup (l : List (List Char × List Char))
    (h : l.Nodup) (a : List Char × List Char) : l.count a ≤ 1 := by
  induction l with
  | nil => simp
  | cons x xs ih =>
    rw [List.count_cons]
    rcases List.nodup_cons.mp h with ⟨hx, hxs⟩
    by_cases hax : x = a
    · subst hax
      have h0 : xs.count x = 0 := List.count_eq_zero.mpr hx
      simp [h0]
    · have hbeq : (x == a) = false := beq_eq_false_iff_ne.mpr hax
      simp only [hbeq, Bool.false_eq_true, if_false, Nat.add_zero]
      exact ih hxs

theorem runPhase2_histLog (env : Env) (q : List Char)
    (loc : Option ResolvedLocation) :
    histLogOK env (runPhase2 env q loc).history (runPhase2 env q loc).callLog := by
  have h0 : histLogOK env ([] : List ToolInvocation) [] :=
    ⟨List.nodup_nil, by simp, by simp, by simp⟩
  have hloop := runLoop_inv env q loc env.stepLimit [] [] [] h0
  cases houtcome : (runLoop env q loc env.stepLimit [] [] []).outcome with
  | answered t =>
    by_cases ht : t = []
    · simp only [runPhase2, houtcome, ht, if_true]
      exact hloop
    · simp only [runPhase2, houtcome, if_neg ht]
      exact hloop
  | limitHit =>
    by_cases hh : (runLoop env q loc env.stepLimit [] [] []).history = []
    · simp only [runPhase2, houtcome, hh, if_true]
      have hl2 := hloop
      rw [hh] at hl2
      exact hl2
    · by_cases ha : env.synth q (runLoop env q loc env.stepLimit [] [] []).history = []
      · simp only [runPhase2, houtcome, if_neg hh, ha, if_true]
        exact hloop
      · simp only [runPhase2, houtcome, if_neg hh, if_neg ha]
        exact hloop
  | unknownTool n =>
    simp only [runPhase2, houtcome]
    exact hloop

theorem runOrch_histLog (env : Env) (q : List Char) :
    histLogOK env (runOrchestration env q).history
      (runOrchestration env q).callLog := by
  have h0 : histLogOK env ([] : List ToolInvocation) [] :=
    ⟨List.nodup_nil, by simp, by simp, by simp⟩
  cases hex : extract q with
  | none =>
    simp only [runOrchestration, hex]
    exact runPhase2_histLog env q none
  | some r =>
    cases hres : resolveRef env r with
    | ok loc =>
      simp only [runOrchestration, hex, hres]
      exact runPhase2_histLog env q (some loc)
    | error e =>
      by_cases ha : env.synth q [] = []
      · simp only [runOrchestration, hex, hres, ha, if_true]
        exact h0
      · simp only [runOrchestration, hex, hres, if_neg ha]
        exact h0

/-- C7: when the planner requests the same tool with identical input at
least twice in one run, the external call log records that pair exactly
once — the repeats are served from the run-local history — and any two
history observations for the pair carry identical outputs. -/
theorem claim_C7 (env : Env) (q t i : List Char)
    (h2 : 2 ≤ ((runOrchestration env q).history.filter
      (fun inv => inv.tool == t && inv.input == i)).length) :
    (runOrchestration env q).callLog.count (t, i) = 1 ∧
    ∀ a ∈ (runOrchestration env q).history,
      ∀ b ∈ (runOrchestration env q).history,
        a.tool = t → a.input = i → b.tool = t → b.input = i →
          a.output = b.output := by
  obtain ⟨hnd, hout, hmem, hexist⟩ := runOrch_histLog env q
  constructor
  · cases hf : (runOrchestration env q).history.filter
        (fun inv => inv.tool == t && inv.input == i) with
    | nil => rw [hf] at h2; simp at h2
    | cons a rest =>
      obtain ⟨hah, hap⟩ := List.mem_filter.mp
        (by rw [hf]; exact List.mem_cons_self a rest)
      rw [Bool.and_eq_true, beq_iff_eq, beq_iff_eq] at hap
      have hinlog : (t, i) ∈ (runOrchestration env q).callLog := by
        have hmm := hmem a hah
        rwa [hap.1, hap.2] at hmm
      have h1 : 0 < (runOrchestration env q).callLog.count (t, i) :=
        List.count_pos_iff.mpr hinlog
      have hle : (runOrchestration env q).callLog.count (t, i) ≤ 1 :=
        count_le_one_of_nodup _ hnd (t, i)
      omega
  · intro a ha b hb hat hai hbt hbi
    rw [hout a ha, hout b hb, hat, hai, hbt, hbi]

/-- A concrete environment whose planner asks for the same tool/input twice
before answering. -/
def envC7 : Env :=
  { geocode := fun _ => none
    callTool := fun _ _ => "output".toList
    plan := fun _ _ hist =>
      if hist.length < 2 then
        NextAction.invoke "nearby_search".toList "parks".toList
      else NextAction.answer "done".toList
    synth := fun _ _ => "answer".toList
    registry := [⟨"nearby_search".toList, true⟩]
    stepLimit := 5 }

theorem claim_C7_witness :
    (runOrchestration envC7 (toL "q")).callLog.count
        (toL "nearby_search", toL "parks") = 1 ∧
    ∀ a ∈ (runOrchestration envC7 (toL "q")).history,
      ∀ b ∈ (runOrchestration envC7 (toL "q")).history,
        a.tool = toL "nearby_search" → a.input = toL "parks" →
        b.tool = toL "nearby_search" → b.input = toL "parks" →
          a.output = b.output :=
  claim_C7 envC7 (toL "q") (toL "nearby_search") (toL "parks") (by decide)

theorem runLoop_length (env : Env) (q : List Char) (loc : Option ResolvedLocation)
    (fuel : Nat) :
    ∀ hist callLog evs,
      (runLoop env q loc fuel hist callLog evs).history.length ≤
        hist.length + fuel := by
  induction fuel with
  | zero => intro hist callLog evs; simp [runLoop]
  | succ fuel ih =>
    intro hist callLog evs
    cases hplan : env.plan q loc hist with
    | answer t =>
      simp only [runLoop, hplan]
      omega
    | invoke tool input =>
      by_cases hmem : tool ∈ env.registry.map ToolSpec.name
      · cases hfind : hist.find? (fun inv => inv.tool == tool && inv.input == input) with
        | some prior =>
          simp only [runLoop, hplan, if_pos hmem, hfind]
          have h2 := ih (hist ++ [⟨tool, input, prior.output, hist.length⟩])
            callLog (evs ++ [tool])
          simp only [List.length_append, List.length_cons, List.length_nil] at h2
          omega
        | none =>
          simp only [runLoop, hplan, if_pos hmem, hfind]
          have h2 := ih (hist ++ [⟨tool, input, env.callTool tool input, hist.length⟩])
            (callLog ++ [(tool, input)]) (evs ++ [tool])
          simp only [List.length_append, List.length_cons, List.length_nil] at h2
          omega
      · simp only [runLoop, hplan, if_neg hmem]
        omega

theorem runPhase2_C8 (env : Env) (q : List Char) (loc : Option ResolvedLocation)
    (hsynth : ∀ hist : List ToolInvocation, hist ≠ [] → env.synth q hist ≠ []) :
    (runPhase2 env q loc).history.length ≤ env.stepLimit ∧
    ((runPhase2 env q loc).limitHit = true →
      ((runPhase2 env q loc).status = FinalStatus.error ↔
        (runPhase2 env q loc).history = [])) := by
  have hlen := runLoop_length env q loc env.stepLimit [] [] []
  simp only [List.length_nil, Nat.zero_add] at hlen
  cases houtcome : (runLoop env q loc env.stepLimit [] [] []).outcome with
  | answered t =>
    by_cases ht : t = []
    · simp only [runPhase2, houtcome, ht, if_true]
      exact ⟨hlen, fun h => absurd h (by simp)⟩
    · simp only [runPhase2, houtcome, if_neg ht]
      exact ⟨hlen, fun h => absurd h (by simp)⟩
  | limitHit =>
    by_cases hh : (runLoop env q loc env.stepLimit [] [] []).history = []
    · simp only [runPhase2, houtcome, hh, if_true]
      exact ⟨by simp, by simp⟩
    · have hne := hsynth _ hh
      simp only [runPhase2, houtcome, if_neg hh, if_neg hne]
      refine ⟨hlen, fun _ => ?_⟩
      constructor
      · intro hcon
        exact absurd hcon (by simp)
      · intro hcon
        exact absurd hcon hh
  | unknownTool n =>
    simp only [runPhase2, houtcome]
    exact ⟨hlen, fun h => absurd h (by simp)⟩

/-- C8: the number of tool invocations of a run never exceeds the configured
step limit; a run that hits the limit synthesizes from whatever history it
has — succeeding whenever a non-empty answer is derivable from a non-empty
history — and fails at the limit exactly when the history is empty. -/
theorem claim_C8 (env : Env) (q : List Char)
    (hsynth : ∀ hist : List ToolInvocation, hist ≠ [] → env.synth q hist ≠ []) :
    (runOrchestration env q).history.length ≤ env.stepLimit ∧
    ((runOrchestration env q).limitHit = true →
      ((runOrchestration env q).status = FinalStatus.error ↔
        (runOrchestration env q).history = [])) := by
  cases hex : extract q with
  | none =>
    simp only [runOrchestration, hex]
    exact runPhase2_C8 env q none hsynth
  | some r =>
    cases hres : resolveRef env r with
    | ok loc =>
      simp only [runOrchestration, hex, hres]
      exact runPhase2_C8 env q (some loc) hsynth
    | error e =>
      by_cases ha : env.synth q [] = []
      · simp only [runOrchestration, hex, hres, ha, if_true]
        exact ⟨by simp, fun h => absurd h (by simp)⟩
      · simp only [runOrchestration, hex, hres, if_neg ha]
        exact ⟨by simp, fun h => absurd h (by simp)⟩

/-- A concrete environment whose planner never stops asking for tools, so
the run must hit the step limit. -/
def envC8 : Env :=
  { geocode := fun _ => none
    callTool := fun _ i => 'r' :: i
    plan := fun _ _ _ => NextAction.invoke "web_search".toList "k".toList
    synth := fun _ _ => "best available".toList
    registry := [⟨"web_search".toList, false⟩]
    stepLimit := 5 }

theorem claim_C8_witness :
    (runOrchestration envC8 (toL "hello")).history.length ≤ envC8.stepLimit ∧
    ((runOrchestration envC8 (toL "hello")).limitHit = true →
      ((runOrchestration envC8 (toL "hello")).status = FinalStatus.error ↔
        (runOrchestration envC8 (toL "hello")).history = [])) :=
  claim_C8 envC8 (toL "hello") (by
    intro hist h
    show "best available".toList ≠ []
    decide)

theorem scanCoords_drop (s : List Char) :
    ∀ (k : Nat) (p : ℚ × ℚ),
      parsePairAt (s.drop k) = some p →
      (∀ j < k, parsePairAt (s.drop j) = none) →
      scanCoords s = some p := by
  induction s with
  | nil =>
    intro k p hk hmin
    rw [List.drop_nil] at hk
    rw [show parsePairAt ([] : List Char) = none from rfl] at hk
    exact absurd hk (by simp)
  | cons c t ih =>
    intro k p hk hmin
    cases k with
    | zero =>
      rw [List.drop_zero] at hk
      simp only [scanCoords, hk]
    | succ k =>
      have h0 : parsePairAt (c :: t) = none := by
        have hm := hmin 0 (Nat.succ_pos k)
        simpa using hm
      simp only [scanCoords, h0]
      refine ih k p hk (fun j hj => ?_)
      have hm := hmin (j + 1) (Nat.succ_lt_succ hj)
      simpa using hm

/-- C9, counterexample: the text `"From 10, 20 to 30, 40"` contains the
valid pair `(30, 40)` with no earlier-matching map-URL, yet the extractor
returns the earlier pair `(10, 20)`, not `(30, 40)` — so "returns exactly
those two values" fails for texts with more than one pair. -/
theorem claim_C9_counterexample :
    findMapsUrl (toL "From 10, 20 to 30, 40") = none ∧
    parsePairAt ((toL "From 10, 20 to 30, 40").drop 15) =
      some ((30 : ℚ), (40 : ℚ)) ∧
    extract (toL "From 10, 20 to 30, 40") =
      some (LocationReference.coordinates 10 20) ∧
    ¬ extract (toL "From 10, 20 to 30, 40") =
      some (LocationReference.coordinates 30 40) := by
  decide

/-- C9, amended: for every text whose leftmost parsable valid
latitude/longitude pair is `(a, b)` and which has no earlier-matching
map-URL, the extractor returns `Coordinates(a, b)` exactly, independent of
the surrounding prose. -/
theorem claim_C9_amended (text : List Char) (k : Nat) (a b : ℚ)
    (hurl : findMapsUrl text = none)
    (hk : parsePairAt (text.drop k) = some (a, b))
    (hmin : ∀ j < k, parsePairAt (text.drop j) = none) :
    extract text = some (LocationReference.coordinates a b) := by
  simp only [extract, hurl, scanCoords_drop text k (a, b) hk hmin]

theorem claim_C9_amended_witness :
    extract (toL "Go to 37.7749, -122.4194 now") =
      some (LocationReference.coordinates (mkRat 377749 10000)
        (mkRat (-1224194) 10000)) :=
  claim_C9_amended (toL "Go to 37.7749, -122.4194 now") 6 (mkRat 377749 10000)
    (mkRat (-1224194) 10000) (by decide) (by decide) (by decide)

end Locas
